import Mathlib

/-!
Verification of the file-backup pipeline (jdollar/file-backup).

Shallow embedding of:
- the chunk planner `ChunkFile` (src/internal/files/files.go) and the
  identical inlined chunk loop of `chunkedUpload` (src/internal/box/client.go);
- the retention logic `fileSystemCleanup` and the remote slice-and-delete in
  `exportToBox` (src/internal/commands/backup.go);
- the archive builder `addFilesToArchive` / `createArchive`
  (src/internal/commands/backup.go);
- the pipeline control flow of `boxCommandAction` / `exportToBox`;
- `handleResponse`, `SearchFolders`, `CommitUploadSession`
  (src/internal/box/client.go).

Go strings and byte slices are byte sequences compared bytewise; both are
modelled as `List Nat` (`GoStr`).  SHA-1 and base64 are cryptographic /
encoding primitives external to this repository; they are taken as function
parameters (`dig`, `sha1`, `b64enc`) wherever the code applies them, since no
claim depends on their internal definition, only on which bytes they are
applied to.
-/

/-- Byte string: Go strings and byte slices are byte sequences;
Go's string comparison is bytewise lexicographic comparison, which is the
lexicographic order on `List Nat`. -/
abbrev GoStr := List Nat

/-- `files.FilePart` (src/internal/files/files.go lines 10-15) and
`box.FilePart` (src/internal/box/client.go lines 293-298).  The two structs
are identical except for the type of `Digest` (byte slice vs base64 string);
the digest type is a parameter `δ`.  `Begin`/`End` are nonnegative byte
offsets (`int64` in the source, never negative and far from overflow). -/
structure FilePart (δ : Type) where
  Begin : Nat
  End : Nat
  Data : List Nat
  Digest : δ
  deriving Repr, DecidableEq

/-- The read loop shared verbatim by `ChunkFile` (files.go lines 17-62) and
`chunkedUpload` (client.go lines 410-451): read the stream in windows of at
most `partSize` bytes (the source's `buf`), and for each nonempty window
emit a part with `Begin = nBytes`, `End = Begin + len(buf) - 1`, the
window's bytes, and a digest of exactly the window's bytes.  A zero-byte
read at end of stream (`io.EOF`) ends the loop.  This definition idealizes
every read as returning `min partSize remaining` bytes
(`data.take partSize`).  The source reads through `bufio.NewReader`, whose
4096-byte internal buffer makes a mid-stream read return fewer than
`partSize` bytes when `partSize` is below the buffer size;
`bufioChunkLoop` below models that read sequence exactly and coincides with
this loop whenever `partSize ≥ 4096` (`bufioChunkLoop_eq_chunkLoop`).
The properties proved on this loop — contiguity, flatten-reconstruction,
ascending `Begin`, empty-parts-iff-empty-input, nil error — are invariant
under how the reads partition the stream: they hold for every sequence of
nonempty windows the loop can emit.  In this pure model reads cannot fail,
so the source's read-error branches are unreachable.  For `partSize = 0`
the source loops forever (a read into a zero-capacity buffer returns
`0, nil` and the loop continues); the model returns `[]` there, and every
claim below assumes `partSize ≥ 1`. -/
def chunkLoop {δ : Type} (dig : List Nat → δ) (partSize : Nat)
    (data : List Nat) (nBytes : Nat) : List (FilePart δ) :=
  if h : partSize = 0 ∨ data = [] then []
  else
    { Begin := nBytes
      End := nBytes + (data.take partSize).length - 1
      Data := data.take partSize
      Digest := dig (data.take partSize) } ::
      chunkLoop dig partSize (data.drop partSize)
        (nBytes + (data.take partSize).length)
termination_by data.length
decreasing_by
  push_neg at h
  obtain ⟨_h1, h2⟩ := h
  have hd : data.length ≠ 0 := fun hc => h2 (List.length_eq_zero.mp hc)
  simp only [List.length_drop]
  omega

/-- `files.ChunkFile` (src/internal/files/files.go lines 17-62): returns the
pair `(parts, error)`.  In the pure model the underlying reads always
succeed, so the error component is always `none` (Go `nil`). -/
def ChunkFile {δ : Type} (dig : List Nat → δ) (data : List Nat)
    (partSize : Nat) : List (FilePart δ) × Option GoStr :=
  (chunkLoop dig partSize data 0, none)

/-- The inlined chunk loop of `chunkedUpload` (src/internal/box/client.go
lines 410-451): identical to `ChunkFile`'s loop run with the server-assigned
part size, except the digest is base64-encoded before being stored. -/
def chunkedUploadParts (sha1 : List Nat → List Nat) (b64enc : List Nat → GoStr)
    (data : List Nat) (serverPartSize : Nat) : List (FilePart GoStr) :=
  chunkLoop (fun b => b64enc (sha1 b)) serverPartSize data 0

/-- Boolean check that a part list is contiguous starting at offset `off`:
each part begins where told, holds at least one byte, its inclusive `End`
offset matches its length, and the next part begins right after it.  This
entails: non-overlap, strictly ascending `Begin`, and that the union of the
ranges is exactly the interval from `off` to `off + total length - 1`. -/
def contiguousFrom {δ : Type} (off : Nat) : List (FilePart δ) → Bool
  | [] => true
  | p :: rest =>
    (decide (p.Begin = off) && decide (1 ≤ p.Data.length) &&
      decide (p.End + 1 = p.Begin + p.Data.length)) &&
    contiguousFrom (p.Begin + p.Data.length) rest

theorem chunkLoop_flatten {δ : Type} (dig : List Nat → δ) (partSize : Nat)
    (data : List Nat) (off : Nat) :
    ((chunkLoop dig partSize data off).map FilePart.Data).flatten =
      if partSize = 0 then ([] : List Nat) else data := by
  induction data, off using chunkLoop.induct dig partSize with
  | case1 data off h =>
    rw [chunkLoop, dif_pos h]
    rcases h with h | h
    · simp [h]
    · subst h
      simp
  | case2 data off h ih =>
    rw [chunkLoop, dif_neg h]
    push_neg at h
    rw [if_neg h.1] at ih ⊢
    simp only [List.map_cons, List.flatten_cons]
    rw [ih]
    exact List.take_append_drop _ _

theorem chunkLoop_contiguous {δ : Type} (dig : List Nat → δ) (partSize : Nat)
    (data : List Nat) (off : Nat) :
    contiguousFrom off (chunkLoop dig partSize data off) = true := by
  induction data, off using chunkLoop.induct dig partSize with
  | case1 data off h =>
    rw [chunkLoop, dif_pos h]
    rfl
  | case2 data off h ih =>
    rw [chunkLoop, dif_neg h]
    push_neg at h
    have hd : data.length ≠ 0 := fun hc => h.2 (List.length_eq_zero.mp hc)
    have hb : (data.take partSize).length = min partSize data.length :=
      List.length_take _ _
    rw [contiguousFrom, ih]
    simp only [Bool.and_true, Bool.and_eq_true, decide_eq_true_eq]
    exact ⟨⟨trivial, by omega⟩, by omega⟩

theorem chunkLoop_eq_nil_iff {δ : Type} (dig : List Nat → δ) (partSize : Nat)
    (data : List Nat) (off : Nat) :
    chunkLoop dig partSize data off = [] ↔ partSize = 0 ∨ data = [] := by
  rw [chunkLoop]
  split
  · simp_all
  · simp_all

theorem chunkLoop_length_bounds {δ : Type} (dig : List Nat → δ) (partSize : Nat)
    (data : List Nat) (off : Nat) :
    ∀ part ∈ chunkLoop dig partSize data off,
      1 ≤ part.Data.length ∧ part.Data.length ≤ partSize := by
  induction data, off using chunkLoop.induct dig partSize with
  | case1 data off h =>
    rw [chunkLoop, dif_pos h]
    simp
  | case2 data off h ih =>
    rw [chunkLoop, dif_neg h]
    push_neg at h
    intro part hpart
    rcases List.mem_cons.mp hpart with hp | hp
    · subst hp
      have hd : data.length ≠ 0 := fun hc => h.2 (List.length_eq_zero.mp hc)
      have hb : (data.take partSize).length = min partSize data.length :=
        List.length_take _ _
      constructor
      · show 1 ≤ (data.take partSize).length
        omega
      · show (data.take partSize).length ≤ partSize
        omega
    · exact ih part hp

theorem chunkLoop_nonlast_length {δ : Type} (dig : List Nat → δ) (partSize : Nat)
    (data : List Nat) (off : Nat) :
    ∀ i, (hi : i + 1 < (chunkLoop dig partSize data off).length) →
      ((chunkLoop dig partSize data off).get ⟨i, by omega⟩).Data.length
        = partSize := by
  induction data, off using chunkLoop.induct dig partSize with
  | case1 data off h =>
    rw [chunkLoop, dif_pos h]
    intro i hi
    simp at hi
  | case2 data off h ih =>
    rw [chunkLoop, dif_neg h]
    push_neg at h
    intro i hi
    simp only [List.length_cons] at hi
    match i with
    | 0 =>
      simp only [List.get_eq_getElem, List.getElem_cons_zero]
      have hrest : chunkLoop dig partSize (List.drop partSize data)
          (off + (List.take partSize data).length) ≠ [] := by
        intro hc
        rw [hc] at hi
        simp at hi
      have hdrop : List.drop partSize data ≠ [] := by
        intro hc
        exact hrest (by rw [hc, chunkLoop, dif_pos (Or.inr rfl)])
      have hlen : partSize < data.length := by
        by_contra hcon
        push_neg at hcon
        exact hdrop (List.drop_eq_nil_of_le hcon)
      have hb : (data.take partSize).length = min partSize data.length :=
        List.length_take _ _
      show (data.take partSize).length = partSize
      omega
    | j + 1 =>
      simp only [List.get_eq_getElem, List.getElem_cons_succ]
      exact ih j (by omega)

theorem contiguousFrom_le_begin {δ : Type} (l : List (FilePart δ)) :
    ∀ off, contiguousFrom off l = true → ∀ q ∈ l, off ≤ q.Begin := by
  induction l with
  | nil => intro off _ q hq; simp at hq
  | cons p rest ih =>
    intro off hc q hq
    rw [contiguousFrom, Bool.and_eq_true, Bool.and_eq_true,
      Bool.and_eq_true] at hc
    obtain ⟨⟨⟨h1, h2⟩, h3⟩, h4⟩ := hc
    rw [decide_eq_true_eq] at h1 h2 h3
    rcases List.mem_cons.mp hq with hp | hp
    · subst hp; omega
    · have := ih (p.Begin + p.Data.length) h4 q hp
      omega

theorem contiguousFrom_pairwise {δ : Type} (l : List (FilePart δ)) :
    ∀ off, contiguousFrom off l = true →
      l.Pairwise (fun a b => a.Begin < b.Begin) := by
  induction l with
  | nil => intro off _; exact List.Pairwise.nil
  | cons p rest ih =>
    intro off hc
    rw [contiguousFrom, Bool.and_eq_true, Bool.and_eq_true,
      Bool.and_eq_true] at hc
    obtain ⟨⟨⟨h1, h2⟩, h3⟩, h4⟩ := hc
    rw [decide_eq_true_eq] at h1 h2 h3
    refine List.Pairwise.cons ?_ (ih _ h4)
    intro q hq
    have := contiguousFrom_le_begin rest (p.Begin + p.Data.length) h4 q hq
    omega

/-- Claim C1: for every byte stream and part size >= 1, the parts produced by
the chunk planner (`ChunkFile`, and the identical inlined loop in
`chunkedUpload`) are contiguous, non-overlapping, start at offset 0, are in
strictly ascending `Begin` order, and concatenating their `Data` in that
order reconstructs the original byte stream exactly. -/
theorem chunk_planner_partitions {δ : Type} (dig : List Nat → δ)
    (sha1 : List Nat → List Nat) (b64enc : List Nat → GoStr)
    (data : List Nat) (partSize : Nat) (hp : 1 ≤ partSize) :
    contiguousFrom 0 (ChunkFile dig data partSize).1 = true ∧
    ((ChunkFile dig data partSize).1.map FilePart.Data).flatten = data ∧
    (ChunkFile dig data partSize).1.Pairwise (fun a b => a.Begin < b.Begin) ∧
    contiguousFrom 0 (chunkedUploadParts sha1 b64enc data partSize) = true ∧
    ((chunkedUploadParts sha1 b64enc data partSize).map FilePart.Data).flatten
      = data := by
  have hps : partSize ≠ 0 := by omega
  refine ⟨chunkLoop_contiguous _ _ _ _, ?_, ?_,
    chunkLoop_contiguous _ _ _ _, ?_⟩
  · show ((chunkLoop dig partSize data 0).map FilePart.Data).flatten = data
    rw [chunkLoop_flatten, if_neg hps]
  · exact contiguousFrom_pairwise _ 0 (chunkLoop_contiguous _ _ _ _)
  · show ((chunkLoop (fun b => b64enc (sha1 b)) partSize data 0).map
      FilePart.Data).flatten = data
    rw [chunkLoop_flatten, if_neg hps]

theorem chunk_planner_partitions_witness :
    1 ≤ 2 ∧
    (contiguousFrom 0 (ChunkFile (fun b => b) [7, 8, 9, 10, 11] 2).1 = true ∧
    ((ChunkFile (fun b => b) [7, 8, 9, 10, 11] 2).1.map FilePart.Data).flatten
      = [7, 8, 9, 10, 11] ∧
    (ChunkFile (fun b => b) [7, 8, 9, 10, 11] 2).1.Pairwise
      (fun a b => a.Begin < b.Begin) ∧
    contiguousFrom 0
      (chunkedUploadParts (fun b => b) (fun b => b) [7, 8, 9, 10, 11] 2)
      = true ∧
    ((chunkedUploadParts (fun b => b) (fun b => b) [7, 8, 9, 10, 11] 2).map
      FilePart.Data).flatten = [7, 8, 9, 10, 11]) :=
  ⟨by decide,
   chunk_planner_partitions (fun b => b) (fun b => b) (fun b => b)
     [7, 8, 9, 10, 11] 2 (by decide)⟩

theorem chunkLoop_scenario {δ : Type} (dig : List Nat → δ) :
    ((chunkLoop dig 20480 (List.replicate 30000 (0 : Nat)) 0).map
      (fun q => (q.Begin, q.End, q.Data.length)))
      = [(0, 20479, 20480), (20480, 29999, 9520)] := by
  rw [chunkLoop, dif_neg (by norm_num)]
  rw [List.take_replicate, List.drop_replicate]
  norm_num
  rw [chunkLoop, dif_neg (by norm_num)]
  rw [List.take_replicate, List.drop_replicate]
  norm_num
  rw [chunkLoop, dif_pos (Or.inr rfl)]

/-- How many bytes are available to one `bufio.Reader.Read` call in the
source's chunk loops: with an empty internal buffer, a request of at least
the buffer size bypasses the buffer and reads `min partSize remaining`
bytes straight from the file, while a smaller request first fills the
buffer with `min bufSize remaining` bytes; with a nonempty internal buffer
the call returns only from the buffered remainder, without refilling. -/
def bufioAvail (bufSize partSize buffered dataLen : Nat) : Nat :=
  if buffered = 0 then
    if bufSize ≤ partSize then min partSize dataLen else min bufSize dataLen
  else buffered

/-- The number of bytes one `bufio.Reader.Read` call returns into the
source's `buf`: at most `partSize` of the available bytes. -/
def bufioReadLen (bufSize partSize buffered dataLen : Nat) : Nat :=
  min partSize (bufioAvail bufSize partSize buffered dataLen)

theorem bufioReadLen_pos (bufSize partSize buffered dataLen : Nat)
    (hp : partSize ≠ 0) (hd : dataLen ≠ 0) :
    1 ≤ bufioReadLen bufSize partSize buffered dataLen := by
  rw [bufioReadLen, bufioAvail]
  by_cases hb : buffered = 0
  · rw [if_pos hb]
    by_cases hbp : bufSize ≤ partSize
    · rw [if_pos hbp]; omega
    · rw [if_neg hbp]; omega
  · rw [if_neg hb]; omega

/-- The chunk read loop with the read sequence of `bufio.NewReader(file)`
modelled exactly: `buffered` is the number of not-yet-returned bytes in
bufio's internal buffer (the first `buffered` bytes of `data`), and each
iteration reads `bufioReadLen` bytes as one `Read` call would.  For
`partSize ≥ bufSize` this coincides with `chunkLoop`
(`bufioChunkLoop_eq_chunkLoop`); for `partSize < bufSize` a `Read` that
drains a partly-consumed buffer returns fewer than `partSize` bytes, so
mid-stream parts shorter than `partSize` occur. -/
def bufioChunkLoop {δ : Type} (dig : List Nat → δ) (bufSize partSize : Nat)
    (data : List Nat) (buffered : Nat) (nBytes : Nat) : List (FilePart δ) :=
  if h : partSize = 0 ∨ data = [] then []
  else
    { Begin := nBytes
      End := nBytes
        + (data.take (bufioReadLen bufSize partSize buffered data.length)).length
        - 1
      Data := data.take (bufioReadLen bufSize partSize buffered data.length)
      Digest := dig
        (data.take (bufioReadLen bufSize partSize buffered data.length)) } ::
      bufioChunkLoop dig bufSize partSize
        (data.drop (bufioReadLen bufSize partSize buffered data.length))
        (bufioAvail bufSize partSize buffered data.length
          - bufioReadLen bufSize partSize buffered data.length)
        (nBytes
          + (data.take (bufioReadLen bufSize partSize buffered data.length)).length)
termination_by data.length
decreasing_by
  push_neg at h
  obtain ⟨h1, h2⟩ := h
  have hd : data.length ≠ 0 := fun hc => h2 (List.length_eq_zero.mp hc)
  have hn := bufioReadLen_pos bufSize partSize buffered data.length h1 hd
  simp only [List.length_drop]
  omega

/-- `files.ChunkFile` (src/internal/files/files.go lines 17-62) with the
reads of its `bufio.NewReader(file)` — default buffer size 4096 — modelled
exactly instead of idealized: the faithful part sequence for every
`partSize`. -/
def ChunkFileBufio {δ : Type} (dig : List Nat → δ) (data : List Nat)
    (partSize : Nat) : List (FilePart δ) × Option GoStr :=
  (bufioChunkLoop dig 4096 partSize data 0 0, none)

theorem bufioChunkLoop_eq_chunkLoop {δ : Type} (dig : List Nat → δ)
    (bufSize partSize : Nat) (hbp : bufSize ≤ partSize)
    (data : List Nat) (off : Nat) :
    bufioChunkLoop dig bufSize partSize data 0 off
      = chunkLoop dig partSize data off := by
  induction data, off using chunkLoop.induct dig partSize with
  | case1 data off h =>
    rw [bufioChunkLoop, dif_pos h, chunkLoop, dif_pos h]
  | case2 data off h ih =>
    rw [bufioChunkLoop, dif_neg h, chunkLoop, dif_neg h]
    have hrd : bufioReadLen bufSize partSize 0 data.length
        = min partSize data.length := by
      rw [bufioReadLen, bufioAvail, if_pos rfl, if_pos hbp]
      omega
    have hav : bufioAvail bufSize partSize 0 data.length
        = min partSize data.length := by
      rw [bufioAvail, if_pos rfl, if_pos hbp]
    have htake : data.take (min partSize data.length) = data.take partSize := by
      rw [List.take_eq_take]
      omega
    have hdrop : data.drop (min partSize data.length) = data.drop partSize := by
      by_cases hpl : partSize ≤ data.length
      · rw [min_eq_left hpl]
      · push_neg at hpl
        rw [min_eq_right (le_of_lt hpl)]
        rw [List.drop_length, List.drop_eq_nil_of_le (le_of_lt hpl)]
    rw [hrd, hav, htake, hdrop]
    rw [Nat.sub_self]
    rw [ih]

theorem bufioChunkLoop_length_bounds {δ : Type} (dig : List Nat → δ)
    (bufSize partSize : Nat) (data : List Nat) (buffered off : Nat) :
    ∀ part ∈ bufioChunkLoop dig bufSize partSize data buffered off,
      1 ≤ part.Data.length ∧ part.Data.length ≤ partSize := by
  induction data, buffered, off
    using bufioChunkLoop.induct dig bufSize partSize with
  | case1 data buffered off h =>
    rw [bufioChunkLoop, dif_pos h]
    simp
  | case2 data buffered off h ih =>
    rw [bufioChunkLoop, dif_neg h]
    push_neg at h
    intro part hpart
    rcases List.mem_cons.mp hpart with hp | hp
    · subst hp
      have hd : data.length ≠ 0 := fun hc => h.2 (List.length_eq_zero.mp hc)
      have hn := bufioReadLen_pos bufSize partSize buffered data.length h.1 hd
      have hnp : bufioReadLen bufSize partSize buffered data.length
          ≤ partSize := min_le_left _ _
      have hb : (data.take (bufioReadLen bufSize partSize buffered
          data.length)).length
          = min (bufioReadLen bufSize partSize buffered data.length)
            data.length := List.length_take _ _
      constructor
      · show 1 ≤ (data.take (bufioReadLen bufSize partSize buffered
          data.length)).length
        omega
      · show (data.take (bufioReadLen bufSize partSize buffered
          data.length)).length ≤ partSize
        omega
    · exact ih part hp

/-- Claim C2 as stated is false on the code: the loops read through
`bufio.NewReader`, whose `Read` takes bytes from at most one underlying
read — with `partSize` below the 4096-byte buffer, a call on a
partly-consumed buffer returns only the buffered remainder.  Concretely,
`partSize = 3000` over a 10,000-byte archive produces parts of lengths
3000, 1096, 3000, 1096, 1808: the second part is not final yet is shorter
than `partSize`. -/
theorem chunk_planner_short_mid_part :
    ((ChunkFileBufio (fun b => b) (List.replicate 10000 (0 : Nat)) 3000).1.map
      (fun q => (q.Begin, q.End, q.Data.length)))
      = [(0, 2999, 3000), (3000, 4095, 1096), (4096, 7095, 3000),
         (7096, 8191, 1096), (8192, 9999, 1808)] ∧ (1096 : Nat) ≠ 3000 := by
  constructor
  · show ((bufioChunkLoop (fun b => b) 4096 3000
        (List.replicate 10000 (0 : Nat)) 0 0).map
      (fun q => (q.Begin, q.End, q.Data.length)))
      = [(0, 2999, 3000), (3000, 4095, 1096), (4096, 7095, 3000),
         (7096, 8191, 1096), (8192, 9999, 1808)]
    rw [bufioChunkLoop, dif_neg (by norm_num)]
    norm_num [bufioReadLen, bufioAvail]
    rw [bufioChunkLoop, dif_neg (by norm_num)]
    norm_num [bufioReadLen, bufioAvail]
    rw [bufioChunkLoop, dif_neg (by norm_num)]
    norm_num [bufioReadLen, bufioAvail]
    rw [bufioChunkLoop, dif_neg (by norm_num)]
    norm_num [bufioReadLen, bufioAvail]
    rw [bufioChunkLoop, dif_neg (by norm_num)]
    norm_num [bufioReadLen, bufioAvail]
    rw [bufioChunkLoop, dif_pos (Or.inr rfl)]
  · decide

/-- Claim C2 (amended): every part the chunk planner emits holds between 1
and `partSize` bytes.  When `partSize` is at least bufio's 4096-byte buffer
size, every read returns exactly `min partSize remaining` bytes, the part
sequence coincides with the idealized window loop, and every part except
possibly the last has length exactly `partSize`; in particular an input of
exactly 30,000 bytes with part size 20,480 yields exactly 2 parts with
inclusive byte ranges [0, 20479] and [20480, 29999].  For `partSize` below
4096, bufio's buffered reads also produce mid-stream parts shorter than
`partSize`. -/
theorem chunk_planner_window_lengths_bufio {δ : Type} (dig : List Nat → δ)
    (data : List Nat) (partSize : Nat) (hp : 1 ≤ partSize) :
    (∀ part ∈ (ChunkFileBufio dig data partSize).1,
      1 ≤ part.Data.length ∧ part.Data.length ≤ partSize) ∧
    (4096 ≤ partSize →
      (ChunkFileBufio dig data partSize).1 = (ChunkFile dig data partSize).1 ∧
      ∀ i, (hi : i + 1 < (ChunkFileBufio dig data partSize).1.length) →
        ((ChunkFileBufio dig data partSize).1.get ⟨i, by omega⟩).Data.length
          = partSize) ∧
    ((ChunkFileBufio dig (List.replicate 30000 (0 : Nat)) 20480).1.map
      (fun q => (q.Begin, q.End, q.Data.length)))
      = [(0, 20479, 20480), (20480, 29999, 9520)] := by
  refine ⟨bufioChunkLoop_length_bounds dig 4096 partSize data 0 0, ?_, ?_⟩
  · intro hbp
    have heq : (ChunkFileBufio dig data partSize).1
        = (ChunkFile dig data partSize).1 :=
      bufioChunkLoop_eq_chunkLoop dig 4096 partSize hbp data 0
    refine ⟨heq, ?_⟩
    intro i hi
    rw [heq] at hi
    have := chunkLoop_nonlast_length dig partSize data 0 i hi
    simp only [List.get_eq_getElem] at this ⊢
    rw [List.getElem_of_eq heq]
    exact this
  · show ((bufioChunkLoop dig 4096 20480 (List.replicate 30000 (0 : Nat))
        0 0).map (fun q => (q.Begin, q.End, q.Data.length)))
      = [(0, 20479, 20480), (20480, 29999, 9520)]
    rw [bufioChunkLoop_eq_chunkLoop dig 4096 20480 (by norm_num)]
    exact chunkLoop_scenario dig

theorem chunk_planner_window_lengths_bufio_witness :
    ((ChunkFileBufio (fun b => b) (List.replicate 30000 (0 : Nat)) 20480).1.map
      (fun q => (q.Begin, q.End, q.Data.length)))
      = [(0, 20479, 20480), (20480, 29999, 9520)] :=
  (chunk_planner_window_lengths_bufio (fun b => b) [5, 6, 7, 8] 3
    (by decide)).2.2

/-- Claim C6 as stated is false on the code: for a zero-length input,
`ChunkFile`'s loop reads zero bytes with `io.EOF` on the first iteration and
breaks, returning the empty part list together with a `nil` error — it does
not fail.  Concretely `ChunkFile dig [] 20480 = ([], nil)`. -/
theorem chunkfile_empty_input_no_error :
    ChunkFile (fun b => b) ([] : List Nat) 20480 = ([], none) := by
  rw [ChunkFile, chunkLoop, dif_pos (Or.inr rfl)]

/-- Claim C6 (amended): the chunk planner produces an empty part sequence
exactly for a zero-length input, but a zero-length input does not fail:
`ChunkFile` returns the empty part list with a `nil` error.  For every
non-empty input it returns at least one part. -/
theorem chunkfile_empty_iff_empty_input {δ : Type} (dig : List Nat → δ)
    (data : List Nat) (partSize : Nat) (hp : 1 ≤ partSize) :
    ((ChunkFile dig data partSize).1 = [] ↔ data = []) ∧
    (ChunkFile dig data partSize).2 = none ∧
    (data ≠ [] → 1 ≤ (ChunkFile dig data partSize).1.length) := by
  have hps : partSize ≠ 0 := by omega
  have hiff : (ChunkFile dig data partSize).1 = [] ↔ data = [] := by
    show chunkLoop dig partSize data 0 = [] ↔ data = []
    rw [chunkLoop_eq_nil_iff]
    exact ⟨fun h => h.resolve_left hps, fun h => Or.inr h⟩
  refine ⟨hiff, rfl, ?_⟩
  intro hne
  have : (ChunkFile dig data partSize).1 ≠ [] := fun hc => hne (hiff.mp hc)
  have := List.length_pos.mpr this
  omega

theorem chunkfile_empty_iff_empty_input_witness :
    (ChunkFile (fun b => b) [9] 4).2 = none ∧
    1 ≤ (ChunkFile (fun b => b) [9] 4).1.length :=
  ⟨(chunkfile_empty_iff_empty_input (fun b => b) [9] 4 (by decide)).2.1,
   (chunkfile_empty_iff_empty_input (fun b => b) [9] 4 (by decide)).2.2
     (by decide)⟩

/-- `box.File` (src/unnamed/part_002): a remote entry; `Typ` is the source's
json field `type` (renamed because `Type` is reserved in Lean). -/
structure File where
  Id : GoStr
  Typ : GoStr
  Name : GoStr
  deriving Repr, DecidableEq

/-- The `ByName` ascending lexicographic sort of filenames
(src/internal/commands/backup.go lines 168-172 and the `sort.Sort` call on
line 186).  Go's `sort.Sort` guarantees exactly that the result is a
permutation of the input ordered by the `Less` relation (`a < b` on strings,
bytewise); `mergeSort` is an executable model with that same postcondition. -/
def sortByName (filenames : List GoStr) : List GoStr :=
  List.mergeSort filenames (fun a b => decide (a ≤ b))

/-- `fileSystemCleanup` (src/internal/commands/backup.go lines 174-199),
reduced to its decision logic: given the globbed listing of the local output
directory, compute `numberToRemove = len - backupLimit`; if that is not
positive, remove nothing; otherwise sort ascending by name and remove the
first `numberToRemove` names.  Returns the list of removed names (the source
deletes each in order; deletions themselves are filesystem side effects). -/
def fileSystemCleanup (backupLimit : Int) (filenames : List GoStr) :
    List GoStr :=
  let numberToRemove : Int := (filenames.length : Int) - backupLimit
  if numberToRemove ≤ 0 then []
  else (sortByName filenames).take numberToRemove.toNat

/-- The remote retention slice of `exportToBox`
(src/internal/commands/backup.go lines 153-162): the folder listing arrives
from the server already sorted by name descending (`ListItemsInFolder` sends
sort=name, direction=DESC); if the entry count exceeds `backupLimit`, the
entries from index `backupLimit` onward are deleted.  Returns the deleted
entries. -/
def exportToBoxCleanup (backupLimit : Int) (entries : List File) :
    List File :=
  if (entries.length : Int) > backupLimit then
    entries.drop backupLimit.toNat
  else []

theorem byteLe_trans (a b c : GoStr) (hab : decide (a ≤ b) = true)
    (hbc : decide (b ≤ c) = true) : decide (a ≤ c) = true := by
  rw [decide_eq_true_eq] at *
  exact le_trans hab hbc

theorem byteLe_total (a b : GoStr) :
    (decide (a ≤ b) || decide (b ≤ a)) = true := by
  simp only [Bool.or_eq_true, decide_eq_true_eq]
  exact le_total a b

theorem sortByName_perm (l : List GoStr) : (sortByName l).Perm l :=
  List.mergeSort_perm l _

theorem sortByName_length (l : List GoStr) :
    (sortByName l).length = l.length :=
  (sortByName_perm l).length_eq

theorem sortByName_sorted (l : List GoStr) :
    (sortByName l).Pairwise (fun a b => a ≤ b) := by
  have h := List.sorted_mergeSort byteLe_trans byteLe_total l
  exact h.imp (fun hab => by simpa using hab)

theorem sortByName_take_le_drop (l : List GoStr) (n : Nat) :
    ∀ d ∈ (sortByName l).take n, ∀ k ∈ (sortByName l).drop n, d ≤ k := by
  have hp := sortByName_sorted l
  rw [← List.take_append_drop n (sortByName l)] at hp
  exact (List.pairwise_append.mp hp).2.2

/-- Claim C3: for every retention run with limit L >= 1 over N existing
entries: if N > L exactly N - L entries are deleted and the L that remain
are the most recent (local store: the ascending lexicographically sorted
length-(N-L) head of the listing is deleted, and every deleted name is <=
every kept name; remote store: the entries beyond index L of the
name-descending listing are deleted, keeping the first L); if N <= L nothing
is deleted. -/
theorem retention_prune_exact (L : Int) (hL : 1 ≤ L)
    (filenames : List GoStr) (entries : List File) :
    ((filenames.length : Int) ≤ L → fileSystemCleanup L filenames = []) ∧
    (L < (filenames.length : Int) →
      fileSystemCleanup L filenames
        = (sortByName filenames).take (filenames.length - L.toNat) ∧
      (fileSystemCleanup L filenames).length = filenames.length - L.toNat ∧
      ((sortByName filenames).drop (filenames.length - L.toNat)).length
        = L.toNat ∧
      ∀ d ∈ fileSystemCleanup L filenames,
        ∀ k ∈ (sortByName filenames).drop (filenames.length - L.toNat),
          d ≤ k) ∧
    ((entries.length : Int) ≤ L → exportToBoxCleanup L entries = []) ∧
    (L < (entries.length : Int) →
      exportToBoxCleanup L entries = entries.drop L.toNat ∧
      (exportToBoxCleanup L entries).length = entries.length - L.toNat ∧
      (entries.take L.toNat).length = L.toNat ∧
      entries.take L.toNat ++ exportToBoxCleanup L entries = entries) := by
  refine ⟨?_, ?_, ?_, ?_⟩
  · intro hle
    rw [fileSystemCleanup, if_pos (by omega)]
  · intro hgt
    have htn : ((filenames.length : Int) - L).toNat
        = filenames.length - L.toNat := by omega
    have heq : fileSystemCleanup L filenames
        = (sortByName filenames).take (filenames.length - L.toNat) := by
      rw [fileSystemCleanup, if_neg (by omega), htn]
    refine ⟨heq, ?_, ?_, ?_⟩
    · rw [heq, List.length_take, sortByName_length]
      omega
    · rw [List.length_drop, sortByName_length]
      omega
    · rw [heq]
      exact sortByName_take_le_drop filenames (filenames.length - L.toNat)
  · intro hle
    rw [exportToBoxCleanup, if_neg (by omega)]
  · intro hgt
    have heq : exportToBoxCleanup L entries = entries.drop L.toNat := by
      rw [exportToBoxCleanup, if_pos (by omega)]
    refine ⟨heq, ?_, ?_, ?_⟩
    · rw [heq, List.length_drop]
    · rw [List.length_take]
      omega
    · rw [heq]
      exact List.take_append_drop _ _

theorem retention_prune_exact_witness :
    fileSystemCleanup 2 [[51], [49], [50]]
      = (sortByName [[51], [49], [50]]).take 1 ∧
    (fileSystemCleanup 2 [[51], [49], [50]]).length = 1 ∧
    exportToBoxCleanup 2 ([] : List File) = [] := by
  have h := retention_prune_exact 2 (by decide) [[51], [49], [50]]
    ([] : List File)
  exact ⟨(h.2.1 (by decide)).1, (h.2.1 (by decide)).2.1,
    h.2.2.1 (by decide)⟩

/-- The local output-directory listing as it stands after a first
`fileSystemCleanup` run: the names that were not removed.  When nothing was
removed this is the original listing; otherwise it is the sorted listing
with the removed length-`numberToRemove` head dropped (the glob after the
run returns exactly the surviving names). -/
def fileSystemRemaining (backupLimit : Int) (filenames : List GoStr) :
    List GoStr :=
  let numberToRemove : Int := (filenames.length : Int) - backupLimit
  if numberToRemove ≤ 0 then filenames
  else (sortByName filenames).drop numberToRemove.toNat

/-- The remote folder listing as it stands after the slice-and-delete in
`exportToBox`: the first `backupLimit` entries survive when the limit was
exceeded, otherwise all entries survive. -/
def exportToBoxRemaining (backupLimit : Int) (entries : List File) :
    List File :=
  if (entries.length : Int) > backupLimit then entries.take backupLimit.toNat
  else entries

/-- Claim C4: prune is idempotent — for both the local cleanup
(`fileSystemCleanup`) and the remote cleanup (the slice-and-delete in
`exportToBox`), running the prune again on the listing left behind by a
first prune, with no new entries added, deletes nothing. -/
theorem retention_prune_idempotent (L : Int) (hL : 1 ≤ L)
    (filenames : List GoStr) (entries : List File) :
    fileSystemCleanup L (fileSystemRemaining L filenames) = [] ∧
    exportToBoxCleanup L (exportToBoxRemaining L entries) = [] := by
  constructor
  · rw [fileSystemRemaining]
    by_cases h : (filenames.length : Int) - L ≤ 0
    · rw [if_pos h, fileSystemCleanup, if_pos (by omega)]
    · rw [if_neg h]
      have hlen : ((sortByName filenames).drop
          ((filenames.length : Int) - L).toNat).length
          = filenames.length - ((filenames.length : Int) - L).toNat := by
        rw [List.length_drop, sortByName_length]
      rw [fileSystemCleanup, if_pos (by rw [hlen]; omega)]
  · rw [exportToBoxRemaining]
    by_cases h : (entries.length : Int) > L
    · rw [if_pos h]
      have hlen : (entries.take L.toNat).length = L.toNat := by
        rw [List.length_take]
        omega
      rw [exportToBoxCleanup, if_neg (by rw [hlen]; omega)]
    · rw [if_neg h, exportToBoxCleanup, if_neg (by omega)]

theorem retention_prune_idempotent_witness :
    (1 : Int) ≤ 2 ∧
    (fileSystemCleanup 2 (fileSystemRemaining 2 [[51], [49], [50]]) = [] ∧
    exportToBoxCleanup 2 (exportToBoxRemaining 2
      [⟨[49], [102], [49]⟩, ⟨[50], [102], [50]⟩, ⟨[51], [102], [51]⟩])
      = []) :=
  ⟨by decide,
   retention_prune_idempotent 2 (by decide) [[51], [49], [50]]
     [⟨[49], [102], [49]⟩, ⟨[50], [102], [50]⟩, ⟨[51], [102], [51]⟩]⟩

/-- Errors of the archive builder: `inputNotFound` is the source's
"No files found for backup" error for a glob with zero matches; `ioErr`
covers glob / open / stat / ReadDir failures; `outOfFuel` marks runs whose
directory recursion exceeds the modelled depth bound (the source has no
such bound and would recurse forever on a symlink cycle). -/
inductive ArchiveErr
  | inputNotFound
  | ioErr
  | outOfFuel
  deriving Repr, DecidableEq

/-- Abstract filesystem interface consumed by `addFilesToArchive`
(src/internal/commands/backup.go lines 223-279): `glob` models
`filepath.Glob` (`none` = pattern error), `isDir` models `os.Open` + `Stat`
(`none` = failure), and `childPaths` models `ioutil.ReadDir` combined with
the construction of each child path by joining the parent directory, the
directory's own name and the child's name (`none` = ReadDir failure). -/
structure ArchiveFS where
  glob : GoStr → Option (List GoStr)
  isDir : GoStr → Option Bool
  childPaths : GoStr → Option (List GoStr)

mutual

/-- `addFilesToArchive` (src/internal/commands/backup.go lines 223-279) over
the abstract filesystem: process the pattern list in order; a pattern whose
glob fails aborts with `ioErr`; a pattern with zero matches aborts with
`inputNotFound`; otherwise the matches are archived by `addMatches` and the
loop continues with the remaining patterns.  The first component of the
result is the ordered list of tar entry names already written to the archive
stream when the function returns — entries written before an aborting input
have already been emitted by the tar writer and stay in the stream.  `fuel`
bounds the directory recursion depth, which the source does not. -/
def addFilesToArchive (fs : ArchiveFS) (fuel : Nat) :
    List GoStr → List GoStr × Option ArchiveErr
  | [] => ([], none)
  | filenameOrGlob :: rest =>
    match fs.glob filenameOrGlob with
    | none => ([], some .ioErr)
    | some [] => ([], some .inputNotFound)
    | some (f :: fnames) =>
      match addMatches fs fuel (f :: fnames) with
      | (written, some e) => (written, some e)
      | (written, none) =>
        match addFilesToArchive fs fuel rest with
        | (written2, e) => (written ++ written2, e)
termination_by files => (fuel, 1, files.length)

/-- The inner loop of `addFilesToArchive` over the glob matches
(src/internal/commands/backup.go lines 234-275): a plain file appends one
tar entry named by its path (`addToArchive`, lines 201-221); a directory is
expanded to its child paths, which are recursively archived, an empty
directory being skipped. -/
def addMatches (fs : ArchiveFS) (fuel : Nat) :
    List GoStr → List GoStr × Option ArchiveErr
  | [] => ([], none)
  | filename :: fnames =>
    match fs.isDir filename with
    | none => ([], some .ioErr)
    | some false =>
      match addMatches fs fuel fnames with
      | (written, e) => (filename :: written, e)
    | some true =>
      match fs.childPaths filename with
      | none => ([], some .ioErr)
      | some [] => addMatches fs fuel fnames
      | some (d :: ds) =>
        match fuel with
        | 0 => ([], some .outOfFuel)
        | fuel' + 1 =>
          match addFilesToArchive fs fuel' (d :: ds) with
          | (written, some e) => (written, some e)
          | (written, none) =>
            match addMatches fs (fuel' + 1) fnames with
            | (written2, e) => (written ++ written2, e)
termination_by fnames => (fuel, 0, fnames.length)

end

/-- `createArchive` (src/internal/commands/backup.go lines 281-293): sets up
the gzip and tar writers over the output stream and delegates to
`addFilesToArchive`; its observable effect on the archive stream is the
entry sequence and error of `addFilesToArchive`. -/
def createArchive (fs : ArchiveFS) (fuel : Nat) (files : List GoStr) :
    List GoStr × Option ArchiveErr :=
  addFilesToArchive fs fuel files

theorem addFilesToArchive_err_of_empty_glob (fs : ArchiveFS) (fuel : Nat) :
    ∀ inputs : List GoStr, (∃ i ∈ inputs, fs.glob i = some []) →
      (addFilesToArchive fs fuel inputs).2 ≠ none := by
  intro inputs
  induction inputs with
  | nil =>
    intro h
    simp at h
  | cons x rest ih =>
    intro h hnone
    rcases h with ⟨i, hi, hgi⟩
    rcases List.mem_cons.mp hi with rfl | hir
    · simp [addFilesToArchive, hgi] at hnone
    · cases hgx : fs.glob x with
      | none => simp [addFilesToArchive, hgx] at hnone
      | some l =>
        cases l with
        | nil => simp [addFilesToArchive, hgx] at hnone
        | cons f fnames =>
          simp only [addFilesToArchive, hgx] at hnone
          rcases hm : addMatches fs fuel (f :: fnames) with ⟨written, e⟩
          rw [hm] at hnone
          cases e with
          | some e0 => simp at hnone
          | none =>
            rcases ha : addFilesToArchive fs fuel rest with ⟨w2, e2⟩
            rw [ha] at hnone
            simp at hnone
            exact ih ⟨i, hir, hgi⟩ (by rw [ha]; simpa using hnone)

/-- Claim C5 as stated is false on the code: glob expansion is validated
lazily, interleaved with writing, so when a later pattern has zero matches
the tar entries of earlier patterns have already been emitted to the archive
stream.  Concretely: pattern list `[a, b]` where `a` matches the plain file
`a` and `b` matches nothing fails with the input-not-found error, yet the
entry for `a` has already been written. -/
def fsLazyGlob : ArchiveFS :=
  { glob := fun s =>
      if s = [97] then some [[97]] else if s = [98] then some [] else none
    isDir := fun s => if s = [97] then some false else none
    childPaths := fun _ => none }

theorem archive_builder_writes_before_failure :
    createArchive fsLazyGlob 4 [[97], [98]]
      = ([[97]], some ArchiveErr.inputNotFound) ∧
    (createArchive fsLazyGlob 4 [[97], [98]]).1 ≠ [] := by
  have h : createArchive fsLazyGlob 4 [[97], [98]]
      = ([[97]], some ArchiveErr.inputNotFound) := by
    simp [createArchive, addFilesToArchive, addMatches, fsLazyGlob]
  exact ⟨h, by rw [h]; simp⟩

/-- Claim C5 (amended): if any pattern in the input list resolves to zero
files, the job fails (the archive builder returns an error rather than
success), and when the failing pattern is the first input, the job fails
with the input-not-found error before any tar entry has been emitted.
Entries for patterns earlier in the list than the failing one, however, have
already been written to the output by the time the job fails. -/
theorem archive_builder_fails_on_empty_glob (fs : ArchiveFS) (fuel : Nat)
    (inputs : List GoStr) (h : ∃ i ∈ inputs, fs.glob i = some []) :
    (createArchive fs fuel inputs).2 ≠ none ∧
    (∀ first rest, inputs = first :: rest → fs.glob first = some [] →
      createArchive fs fuel inputs = ([], some ArchiveErr.inputNotFound)) := by
  constructor
  · exact addFilesToArchive_err_of_empty_glob fs fuel inputs h
  · intro first rest hin hfirst
    subst hin
    simp [createArchive, addFilesToArchive, hfirst]

theorem archive_builder_fails_on_empty_glob_witness :
    (createArchive fsLazyGlob 4 [[98]]).2 ≠ none ∧
    createArchive fsLazyGlob 4 [[98]]
      = ([], some ArchiveErr.inputNotFound) :=
  ⟨(archive_builder_fails_on_empty_glob fsLazyGlob 4 [[98]] (by decide)).1,
   (archive_builder_fails_on_empty_glob fsLazyGlob 4 [[98]] (by decide)).2
     [98] [] rfl (by decide)⟩

/-- Observable pipeline steps of `boxCommandAction` and `exportToBox`
(src/internal/commands/backup.go lines 82-166 and 321-378), in the order
the source can attempt them. -/
inductive PipeEvent
  | createArchive
  | localPrune
  | searchFolders
  | createFolder
  | upload
  | listRemote
  | remotePrune
  deriving Repr, DecidableEq

/-- Outcome of each fallible pipeline step, fixed in advance: `archiveOk`
collapses archive creation together with the adjacent temp-file create,
close, move and re-open steps (lines 323-363), whose failures all abort
before the local cleanup; `folderFound` is whether the folder search result
contains the configured folder name; `remoteOverLimit` is whether the
remote listing exceeds the backup limit; `deleteOk` is whether every remote
delete succeeds. -/
structure RunOutcomes where
  archiveOk : Bool
  localPruneOk : Bool
  validateOk : Bool
  searchOk : Bool
  folderFound : Bool
  createFolderOk : Bool
  uploadOk : Bool
  listOk : Bool
  remoteOverLimit : Bool
  deleteOk : Bool
  deriving Repr, DecidableEq

/-- Control flow of `exportToBox` (src/internal/commands/backup.go lines
82-166): validate config, search for the backup folder, create it when
absent, upload, list the remote folder, and delete the overflow entries.
Returns the steps attempted, in order, and whether the function returned
`nil`.  Each failing step returns its error immediately. -/
def exportToBoxRun (o : RunOutcomes) : List PipeEvent × Bool :=
  if o.validateOk = false then ([], false)
  else if o.searchOk = false then ([.searchFolders], false)
  else if o.folderFound = false && o.createFolderOk = false then
    ([.searchFolders, .createFolder], false)
  else
    let pre : List PipeEvent :=
      if o.folderFound then [.searchFolders] else [.searchFolders, .createFolder]
    if o.uploadOk = false then (pre ++ [.upload], false)
    else if o.listOk = false then (pre ++ [.upload, .listRemote], false)
    else if o.remoteOverLimit = false then (pre ++ [.upload, .listRemote], true)
    else (pre ++ [.upload, .listRemote, .remotePrune], o.deleteOk)

/-- Control flow of `boxCommandAction` (src/internal/commands/backup.go
lines 321-378): build the archive (aborting on failure), run the local
`fileSystemCleanup` (aborting on failure), then run `exportToBox`. -/
def boxCommandActionRun (o : RunOutcomes) : List PipeEvent × Bool :=
  if o.archiveOk = false then ([.createArchive], false)
  else if o.localPruneOk = false then ([.createArchive, .localPrune], false)
  else
    ((PipeEvent.createArchive : PipeEvent) :: PipeEvent.localPrune ::
      (exportToBoxRun o).1, (exportToBoxRun o).2)

/-- A run in which every step up to the upload succeeds and the upload
fails. -/
def uploadFailOutcomes : RunOutcomes :=
  { archiveOk := true, localPruneOk := true, validateOk := true,
    searchOk := true, folderFound := true, createFolderOk := true,
    uploadOk := false, listOk := true, remoteOverLimit := true,
    deleteOk := true }

/-- Claim C7 as stated is false on the code: `boxCommandAction` runs the
local retention step (`fileSystemCleanup`, line 365) before calling
`exportToBox` (line 372), so when the upload fails the local store has
already been pruned — retention for the local store is not gated on upload
success.  Concretely: in a run where everything up to the upload succeeds
and the upload fails, the pipeline fails, yet the local prune was
attempted. -/
theorem pipeline_prunes_local_before_upload :
    uploadFailOutcomes.uploadOk = false ∧
    (boxCommandActionRun uploadFailOutcomes).2 = false ∧
    PipeEvent.localPrune ∈ (boxCommandActionRun uploadFailOutcomes).1 := by
  decide

/-- Claim C7 (amended): the local retention step runs before the upload —
whenever the upload is attempted the local prune has already run, and a
local-retention failure aborts the pipeline before the upload.  Only the
remote retention step is gated on upload success: it is attempted only when
the upload succeeded, an upload failure aborts the pipeline without
attempting it, and a failure during remote retention makes the pipeline
report failure without undoing the already-completed upload (the upload
stays in the trace). -/
theorem pipeline_remote_prune_after_upload (o : RunOutcomes) :
    (PipeEvent.remotePrune ∈ (boxCommandActionRun o).1 →
      o.uploadOk = true ∧ PipeEvent.upload ∈ (boxCommandActionRun o).1) ∧
    (o.uploadOk = false →
      PipeEvent.remotePrune ∉ (boxCommandActionRun o).1) ∧
    (PipeEvent.upload ∈ (boxCommandActionRun o).1 →
      PipeEvent.localPrune ∈ (boxCommandActionRun o).1) ∧
    (o.archiveOk = true → o.localPruneOk = false →
      (boxCommandActionRun o).1 = [.createArchive, .localPrune] ∧
      (boxCommandActionRun o).2 = false) ∧
    (PipeEvent.remotePrune ∈ (boxCommandActionRun o).1 → o.deleteOk = false →
      (boxCommandActionRun o).2 = false ∧
      PipeEvent.upload ∈ (boxCommandActionRun o).1) := by
  obtain ⟨a, b, c, d, e, f, g, h, i, j⟩ := o
  cases a <;> cases b <;> cases c <;> cases d <;> cases e <;> cases f <;>
    cases g <;> cases h <;> cases i <;> cases j <;> decide

theorem pipeline_remote_prune_after_upload_witness :
    PipeEvent.remotePrune ∉ (boxCommandActionRun uploadFailOutcomes).1 :=
  (pipeline_remote_prune_after_upload uploadFailOutcomes).2.1 (by decide)

/-- `box.ClientError` (src/unnamed/part_002): the structured error body
`{type, status, code, context_info, help_url, message, request_id}`.
`context_info` is an untyped json blob (`interface` in the source) that no
code path reads; it is omitted here.  `Typ` is the json field `type`. -/
structure ClientError where
  Typ : GoStr
  Status : Int
  Code : GoStr
  HelpUrl : GoStr
  Message : GoStr
  RequestId : GoStr
  deriving Repr, DecidableEq

/-- The errors `handleResponse` can return: `decodeErr` is a json decode
failure of the error body, `msgErr m` is `errors.New(errResp.Message)`, and
`resultDecodeErr` is a failure of the decode into the caller's result value
(for a non-2xx response with an empty message this decode always fails,
because the first decoder has already consumed the single json document in
the body). -/
inductive RespErr
  | decodeErr
  | msgErr (m : GoStr)
  | resultDecodeErr
  deriving Repr, DecidableEq

/-- An HTTP response as `handleResponse` observes it: the status code,
what decoding the body as `ClientError` would yield (`none` = the body is
not a well-formed json document for it), and whether decoding the body into
the caller's result value would succeed. -/
structure HttpResponse where
  StatusCode : Int
  errBody : Option ClientError
  resultOk : Bool
  deriving Repr, DecidableEq

/-- `handleResponse` (src/internal/box/client.go lines 59-80): for a status
outside 200-299, decode the body as `ClientError` (returning the decode
error on failure) and return the message as an error when it is nonempty;
otherwise fall through to the result decode, which for such a response hits
the already-consumed body and fails.  For a 2xx status other than 204 the
body is decoded into the result. -/
def handleResponse (resp : HttpResponse) : Option RespErr :=
  if resp.StatusCode < 200 ∨ 300 ≤ resp.StatusCode then
    match resp.errBody with
    | none => some .decodeErr
    | some errResp =>
      if errResp.Message ≠ [] then some (.msgErr errResp.Message)
      else if resp.StatusCode ≠ 204 then some .resultDecodeErr
      else none
  else if resp.StatusCode ≠ 204 then
    (if resp.resultOk then none else some .resultDecodeErr)
  else none

/-- Claim C8: for every HTTP response whose status code is outside 200-299,
`handleResponse` — and hence every client operation that propagates its
result — returns an error; the error body is decoded as the structured
`ClientError` (whose fields include message, status, code and request_id),
and whenever the decoded message is nonempty that message is the error
surfaced. -/
theorem handleResponse_non2xx_errors (resp : HttpResponse)
    (h : resp.StatusCode < 200 ∨ 300 ≤ resp.StatusCode) :
    (handleResponse resp).isSome = true ∧
    (∀ ce, resp.errBody = some ce → ce.Message ≠ [] →
      handleResponse resp = some (RespErr.msgErr ce.Message)) ∧
    (resp.errBody = none → handleResponse resp = some RespErr.decodeErr) := by
  have h204 : ¬ resp.StatusCode = 204 := by omega
  refine ⟨?_, ?_, ?_⟩
  · rw [handleResponse, if_pos h]
    cases hb : resp.errBody with
    | none => simp
    | some ce =>
      by_cases hm : ce.Message = []
      · simp [hm, h204]
      · simp [hm]
  · intro ce hb hm
    rw [handleResponse, if_pos h, hb]
    simp [hm]
  · intro hb
    rw [handleResponse, if_pos h, hb]

theorem handleResponse_non2xx_errors_witness :
    handleResponse ⟨404, some ⟨[], 404, [], [], [110, 111], []⟩, false⟩
      = some (RespErr.msgErr [110, 111]) :=
  (handleResponse_non2xx_errors
    ⟨404, some ⟨[], 404, [], [], [110, 111], []⟩, false⟩ (by decide)).2.1
    ⟨[], 404, [], [], [110, 111], []⟩ rfl (by decide)

/-- `box.UploadPart` (src/unnamed/part_002): a server-confirmed part
descriptor `{offset, part_id, sha1, size}`. -/
structure UploadPart where
  Offset : Int
  PartId : GoStr
  Sha1 : GoStr
  Size : Int
  deriving Repr, DecidableEq

/-- The `ByOffset` sort performed by `CommitUploadSession`
(src/internal/box/client.go lines 249-258): Go's `sort.Sort` with
`Less = Offset <` guarantees a permutation of the input that is
nondecreasing in `Offset`; `mergeSort` is an executable model with that
same postcondition. -/
def sortPartsByOffset (parts : List UploadPart) : List UploadPart :=
  List.mergeSort parts (fun a b => decide (a.Offset ≤ b.Offset))

/-- `box.CommitUploadSessionRequest` (src/unnamed/part_002). -/
structure CommitUploadSessionRequest where
  Parts : List UploadPart
  deriving Repr, DecidableEq

/-- `CommitUploadSession` (src/internal/box/client.go lines 255-291),
reduced to the data it sends: it sorts the given parts ascending by offset,
puts them in the request body, and sets the `digest` header to
`sha=` followed by the given digest string (the bytes 115, 104, 97, 61 are
`s`, `h`, `a`, `=`). -/
def CommitUploadSession (parts : List UploadPart) (digest : GoStr) :
    CommitUploadSessionRequest × GoStr :=
  (⟨sortPartsByOffset parts⟩, [115, 104, 97, 61] ++ digest)

/-- The commit stage of `chunkedUpload` (src/internal/box/client.go lines
514-531): after all parts are processed it re-opens the archive file by
name, streams the whole file through a fresh SHA-1, base64-encodes that
digest, and commits the session with the collected part descriptors and
that whole-file digest.  `fileData` is the archive's full content as
re-read from disk; `uploadedParts` are the server-confirmed descriptors in
whatever order the concurrent uploads delivered them. -/
def chunkedUploadCommit (sha1 : List Nat → List Nat)
    (b64enc : List Nat → GoStr) (fileData : List Nat)
    (uploadedParts : List UploadPart) :
    CommitUploadSessionRequest × GoStr :=
  CommitUploadSession uploadedParts (b64enc (sha1 fileData))

theorem offsetLe_trans (a b c : UploadPart)
    (hab : decide (a.Offset ≤ b.Offset) = true)
    (hbc : decide (b.Offset ≤ c.Offset) = true) :
    decide (a.Offset ≤ c.Offset) = true := by
  rw [decide_eq_true_eq] at *
  exact le_trans hab hbc

theorem offsetLe_total (a b : UploadPart) :
    (decide (a.Offset ≤ b.Offset) || decide (b.Offset ≤ a.Offset)) = true := by
  simp only [Bool.or_eq_true, decide_eq_true_eq]
  exact le_total a.Offset b.Offset

/-- Claim C9: whenever a chunked upload reaches the commit step, the part
descriptors passed to the remote commit are sorted ascending by byte
offset (and are exactly the collected descriptors, permuted), and the
digest header attached to the commit is `sha=` followed by the
base64-encoded SHA-1 of the entire original archive file as re-read from
disk, independent of the per-part digests. -/
theorem chunked_commit_sorted_whole_file_digest (sha1 : List Nat → List Nat)
    (b64enc : List Nat → GoStr) (fileData : List Nat)
    (uploadedParts : List UploadPart) :
    (chunkedUploadCommit sha1 b64enc fileData uploadedParts).1.Parts.Pairwise
      (fun a b => a.Offset ≤ b.Offset) ∧
    (chunkedUploadCommit sha1 b64enc fileData
      uploadedParts).1.Parts.Perm uploadedParts ∧
    (chunkedUploadCommit sha1 b64enc fileData uploadedParts).2
      = [115, 104, 97, 61] ++ b64enc (sha1 fileData) := by
  refine ⟨?_, ?_, rfl⟩
  · have h := List.sorted_mergeSort offsetLe_trans offsetLe_total uploadedParts
    exact h.imp (fun hab => by simpa using hab)
  · exact List.mergeSort_perm uploadedParts _

/-- The outgoing folder-search request: method GET, the search URL, and the
query parameters. -/
structure SearchRequest where
  Url : String
  Query : List (String × String)
  deriving Repr, DecidableEq

/-- `SearchFolders` (src/internal/box/client.go lines 83-109), reduced to
the request it sends: the `name` argument is never used; the query is the
hard-coded literal "minecraftBackups". -/
def SearchFolders (name : String) : SearchRequest :=
  { Url := "https://api.box.com/2.0/search"
    Query := [("query", "minecraftBackups")] }

/-- Claim C10: `SearchFolders` ignores its name argument — every call sends
the fixed query string "minecraftBackups", so two calls with different
names produce identical requests and the search result is independent of
the configured backup folder name. -/
theorem searchFolders_ignores_name (name other : String) :
    SearchFolders name = SearchFolders other ∧
    (SearchFolders name).Query = [("query", "minecraftBackups")] :=
  ⟨rfl, rfl⟩
